import Mathlib

/-!
# Verification of the wavetable synthesis library (`src/lib.rs`)

The repository implements wavetable synthesis: four periodic waveform
functions over a normalized phase (`sine`, `tri`, `saw`, `square`), and a
`WaveTable` type holding a precomputed sample table of a chosen size,
with a `synth` operation that resamples the table by linear interpolation.

Embedding choices:

* The `f64` arithmetic of the source is modelled over the exact reals `ℝ`.
  Rust's `f64::fract` (`x - x.trunc()`, truncation toward zero) is `fract64`
  below, and the saturating `as usize` cast is `castUsize`.
* Indexing `self.table[i]` panics in Rust when `i` is out of bounds, and
  `% self.size` panics when `self.size = 0`; `synth` therefore returns an
  `Option`, with `none` modelling a panic.
* Claims about IEEE-754 non-finite propagation (`fs = 0` giving `NaN`/`Inf`)
  cannot be stated over `ℝ`; they use the separate classification model
  `FloatV` further below, which tracks finite values exactly and models the
  IEEE-754 rules for `NaN` and the infinities.
-/

namespace Wavetable

/-- `fn sine(phase: f64) -> f64 { (2.0 * PI * phase).sin() }` -/
noncomputable def sine (phase : ℝ) : ℝ := Real.sin (2 * Real.pi * phase)

/-- `fn tri(phase: f64) -> f64`: `4.0 * phase - 1.0` when `phase < 0.5`,
`-4.0 * phase + 3.0` otherwise. -/
noncomputable def tri (phase : ℝ) : ℝ :=
  if phase < 0.5 then 4 * phase - 1 else -4 * phase + 3

/-- `fn saw(phase: f64) -> f64 { -2.0 * phase + 1.0 }` -/
noncomputable def saw (phase : ℝ) : ℝ := -2 * phase + 1

/-- `fn square(phase: f64) -> f64`: `1.0` when `phase < 0.5`, `-1.0` otherwise. -/
noncomputable def square (phase : ℝ) : ℝ :=
  if phase < 0.5 then 1 else -1

/-- The four shapes generated by `impl_wavetable!{ Sine Tri Saw Square }`. -/
inductive Shape where
  | sine
  | tri
  | saw
  | square
deriving DecidableEq

/-- The generating waveform function of a shape. -/
noncomputable def Shape.fn : Shape → ℝ → ℝ
  | .sine => Wavetable.sine
  | .tri => Wavetable.tri
  | .saw => Wavetable.saw
  | .square => Wavetable.square

/-- The structure generated for each shape: `{ size: usize, table: Vec<f64> }`. -/
structure WaveTable where
  size : ℕ
  table : List ℝ

/-- `WaveTable::new`:
`let table: Vec<f64> = (0..size).map(|i| f(i as f64 / size as f64)).collect();`.
Total: in Rust this constructor cannot fail (an empty range yields an empty
vector). -/
noncomputable def WaveTable.new (s : Shape) (size : ℕ) : WaveTable :=
  { size := size
    table := (List.range size).map (fun (i : ℕ) => s.fn ((i : ℝ) / (size : ℝ))) }

/-- Truncation toward zero, the rounding of Rust's `f64::trunc`. -/
noncomputable def trunc64 (x : ℝ) : ℤ := if x < 0 then ⌈x⌉ else ⌊x⌋

/-- Rust's `f64::fract`: `self - self.trunc()`. (For negative arguments this
is in `(-1, 0]`, unlike the mathematical fractional part.) -/
noncomputable def fract64 (x : ℝ) : ℝ := x - trunc64 x

/-- Rust's saturating `f64 as usize` cast on finite values: truncate toward
zero, clamp negatives to `0` (via `Int.toNat`) and clamp above at
`usize::MAX = 2^64 - 1`. -/
noncomputable def castUsize (x : ℝ) : ℕ := min (trunc64 x).toNat (2 ^ 64 - 1)

/-- `WaveTable::synth`:
```
let pos = (n as f64 * f / fs).fract() * self.size as f64;
let rel_pos = pos / self.size as f64;
(1.0 - rel_pos) * self.table[pos as usize] + rel_pos * self.table[(pos as usize + 1) % self.size]
```
`none` models a panic: the first indexing panics when `pos as usize` is out
of bounds, then `% self.size` panics when `self.size = 0`, then the second
indexing panics when out of bounds, in that evaluation order. -/
noncomputable def WaveTable.synth (wt : WaveTable) (n : ℕ) (f fs : ℝ) : Option ℝ :=
  let pos : ℝ := fract64 ((n : ℝ) * f / fs) * (wt.size : ℝ)
  let rel_pos : ℝ := pos / (wt.size : ℝ)
  match wt.table[castUsize pos]? with
  | none => none
  | some t0 =>
    if wt.size = 0 then none
    else
      match wt.table[(castUsize pos + 1) % wt.size]? with
      | none => none
      | some t1 => some ((1 - rel_pos) * t0 + rel_pos * t1)

/-! ## Basic facts about construction -/

theorem new_size (s : Shape) (size : ℕ) : (WaveTable.new s size).size = size := rfl

theorem new_table_length (s : Shape) (size : ℕ) :
    (WaveTable.new s size).table.length = size := by
  simp only [WaveTable.new, List.length_map, List.length_range]

theorem new_table_getElem? (s : Shape) (size i : ℕ) (hi : i < size) :
    (WaveTable.new s size).table[i]? = some (s.fn ((i : ℝ) / (size : ℝ))) := by
  simp only [WaveTable.new, List.getElem?_map, List.getElem?_range hi, Option.map_some']

theorem new_table_getD (s : Shape) (size i : ℕ) (hi : i < size) :
    (WaveTable.new s size).table.getD i 0 = s.fn ((i : ℝ) / (size : ℝ)) := by
  rw [List.getD_eq_getElem?_getD, new_table_getElem? s size i hi, Option.getD_some]

/-! ## Facts about truncation and the saturating cast -/

theorem trunc64_of_nonneg {x : ℝ} (hx : 0 ≤ x) : trunc64 x = ⌊x⌋ := by
  simp [trunc64, not_lt.mpr hx]

theorem fract64_of_nonneg {x : ℝ} (hx : 0 ≤ x) : fract64 x = Int.fract x := by
  rw [fract64, trunc64_of_nonneg hx, Int.self_sub_floor]

theorem fract64_lt_one (x : ℝ) : fract64 x < 1 := by
  rcases lt_or_le x 0 with h | h
  · have hc : x ≤ ⌈x⌉ := Int.le_ceil x
    simp only [fract64, trunc64, if_pos h]
    linarith
  · rw [fract64_of_nonneg h]
    exact Int.fract_lt_one x

theorem neg_one_lt_fract64 (x : ℝ) : -1 < fract64 x := by
  rcases lt_or_le x 0 with h | h
  · have hc : (⌈x⌉ : ℝ) < x + 1 := Int.ceil_lt_add_one x
    simp only [fract64, trunc64, if_pos h]
    linarith
  · rw [fract64_of_nonneg h]
    have := Int.fract_nonneg x
    linarith

/-- The saturating cast keeps any value below `size` at an index below
`size`: negative values and truncated in-range values land in `[0, size)`,
and the `usize::MAX` clamp can only decrease the result. -/
theorem castUsize_lt {x : ℝ} {size : ℕ} (hsize : 1 ≤ size) (hx : x < (size : ℝ)) :
    castUsize x < size := by
  refine lt_of_le_of_lt (min_le_left _ _) ?_
  rcases lt_or_le x 0 with h | h
  · have hc : ⌈x⌉ ≤ 0 := Int.ceil_le.mpr (by exact_mod_cast h.le)
    simp only [trunc64, if_pos h]
    omega
  · rw [trunc64_of_nonneg h]
    have hfl : ⌊x⌋ < (size : ℤ) := by
      exact_mod_cast Int.floor_lt.mpr (by exact_mod_cast hx)
    omega

/-- Under the real Rust bound `size < 2^64` the `usize::MAX` clamp never
binds, and for nonnegative in-range `x` the cast is plain truncation. -/
theorem castUsize_eq_floor_toNat {x : ℝ} {size : ℕ} (hx0 : 0 ≤ x) (hx : x < (size : ℝ))
    (hb : size < 2 ^ 64) : castUsize x = ⌊x⌋.toNat := by
  have hfl : ⌊x⌋ < (size : ℤ) := by
    exact_mod_cast Int.floor_lt.mpr (by exact_mod_cast hx)
  rw [castUsize, trunc64_of_nonneg hx0]
  omega

/-! ## Evaluation of `synth` on valid inputs -/

/-- On a well-formed table (`length = size ≥ 1`) and nonnegative raw phase,
`synth` returns the interpolated value, with the blend weight equal to
`Int.fract (n * f / fs)` itself. -/
theorem synth_eq_some (wt : WaveTable) (n : ℕ) (f fs : ℝ)
    (hlen : wt.table.length = wt.size) (hsize : 1 ≤ wt.size)
    (hraw : 0 ≤ (n : ℝ) * f / fs) :
    wt.synth n f fs =
      some ((1 - Int.fract ((n : ℝ) * f / fs)) *
          wt.table.getD (castUsize (Int.fract ((n : ℝ) * f / fs) * (wt.size : ℝ))) 0 +
        Int.fract ((n : ℝ) * f / fs) *
          wt.table.getD
            ((castUsize (Int.fract ((n : ℝ) * f / fs) * (wt.size : ℝ)) + 1) % wt.size) 0) := by
  have hszR : (0 : ℝ) < (wt.size : ℝ) := by exact_mod_cast hsize
  have hposlt : Int.fract ((n : ℝ) * f / fs) * (wt.size : ℝ) < (wt.size : ℝ) := by
    calc Int.fract ((n : ℝ) * f / fs) * (wt.size : ℝ)
        < 1 * (wt.size : ℝ) := by
          exact mul_lt_mul_of_pos_right (Int.fract_lt_one _) hszR
      _ = (wt.size : ℝ) := one_mul _
  have hi0 : castUsize (Int.fract ((n : ℝ) * f / fs) * (wt.size : ℝ)) < wt.size :=
    castUsize_lt hsize hposlt
  have hi1 : (castUsize (Int.fract ((n : ℝ) * f / fs) * (wt.size : ℝ)) + 1) % wt.size
      < wt.size := Nat.mod_lt _ (by omega)
  have hrel : Int.fract ((n : ℝ) * f / fs) * (wt.size : ℝ) / (wt.size : ℝ)
      = Int.fract ((n : ℝ) * f / fs) :=
    mul_div_cancel_right₀ _ (ne_of_gt hszR)
  have h0 : castUsize (Int.fract ((n : ℝ) * f / fs) * (wt.size : ℝ)) < wt.table.length := by
    rw [hlen]; exact hi0
  have h1 : (castUsize (Int.fract ((n : ℝ) * f / fs) * (wt.size : ℝ)) + 1) % wt.size
      < wt.table.length := by
    rw [hlen]; exact hi1
  rw [WaveTable.synth]
  simp only [fract64_of_nonneg hraw, hrel, if_neg (by omega : ¬ wt.size = 0)]
  rw [List.getElem?_eq_getElem h0, List.getElem?_eq_getElem h1]
  rw [List.getD_eq_getElem _ _ h0, List.getD_eq_getElem _ _ h1]

/-! ## Amplitude bounds of the waveform functions on `[0, 1)` -/

theorem fn_bounds (s : Shape) {x : ℝ} (h0 : 0 ≤ x) (h1 : x < 1) :
    -1 ≤ s.fn x ∧ s.fn x ≤ 1 := by
  cases s with
  | sine => exact ⟨Real.neg_one_le_sin _, Real.sin_le_one _⟩
  | tri =>
    show -1 ≤ tri x ∧ tri x ≤ 1
    rw [tri]
    split
    · constructor <;> nlinarith
    · rename_i h
      rw [not_lt] at h
      norm_num at h
      constructor <;> nlinarith
  | saw =>
    show -1 ≤ saw x ∧ saw x ≤ 1
    rw [saw]
    constructor <;> nlinarith
  | square =>
    show -1 ≤ square x ∧ square x ≤ 1
    rw [square]
    split <;> norm_num

theorem new_table_getD_bounds (s : Shape) (size i : ℕ) (hsize : 1 ≤ size) (hi : i < size) :
    -1 ≤ (WaveTable.new s size).table.getD i 0 ∧ (WaveTable.new s size).table.getD i 0 ≤ 1 := by
  rw [new_table_getD s size i hi]
  have hszR : (0 : ℝ) < (size : ℝ) := by exact_mod_cast hsize
  refine fn_bounds s (div_nonneg (Nat.cast_nonneg i) hszR.le) ?_
  rw [div_lt_one hszR]
  exact_mod_cast hi

/-! ## Claim theorems -/

/-- C1: For every shape and every `size ≥ 1`, `Construct(size)` yields a table
of exactly `size` samples in which `table[i]` equals the shape's generating
function evaluated at phase `i / size`, for every `i` in `[0, size)`. -/
theorem construct_table_spec (s : Shape) (size i : ℕ) (_hsize : 1 ≤ size) (hi : i < size) :
    (WaveTable.new s size).table.length = size ∧
    (WaveTable.new s size).table[i]? = some (s.fn (((i : ℕ) : ℝ) / ((size : ℕ) : ℝ))) :=
  ⟨new_table_length s size, new_table_getElem? s size i hi⟩

/-- Witness for `construct_table_spec` at shape `saw`, `size = 4`, `i = 2`. -/
theorem construct_table_spec_witness :
    1 ≤ 4 ∧ 2 < 4 ∧
      ((WaveTable.new Shape.saw 4).table.length = 4 ∧
        (WaveTable.new Shape.saw 4).table[2]? =
          some (Shape.saw.fn (((2 : ℕ) : ℝ) / ((4 : ℕ) : ℝ)))) :=
  ⟨by decide, by decide, construct_table_spec Shape.saw 4 2 (by decide) (by decide)⟩

/-- C2: For every shape, `size ≥ 1` (a `usize`, so below `2^64`) and valid
inputs, `Synth(n, f, fs)` returns `(1 - rel) * table[i0] + rel * table[i1]`
with `pos = frac(n*f/fs) * size`, `i0 = trunc(pos)`, `i1 = (i0 + 1) % size`,
and the blend weight `rel = pos / size` equal to `frac(n*f/fs)` itself. -/
theorem synth_formula (s : Shape) (size n : ℕ) (f fs : ℝ)
    (hsize : 1 ≤ size) (husize : size < 2 ^ 64) (hf : 0 ≤ f) (hfs : 0 < fs) :
    (WaveTable.new s size).synth n f fs =
      some ((1 - Int.fract ((n : ℝ) * f / fs)) *
          (WaveTable.new s size).table.getD
            ((trunc64 (Int.fract ((n : ℝ) * f / fs) * (size : ℝ))).toNat) 0 +
        Int.fract ((n : ℝ) * f / fs) *
          (WaveTable.new s size).table.getD
            (((trunc64 (Int.fract ((n : ℝ) * f / fs) * (size : ℝ))).toNat + 1) % size) 0) ∧
    Int.fract ((n : ℝ) * f / fs) * (size : ℝ) / (size : ℝ) = Int.fract ((n : ℝ) * f / fs) := by
  have hszR : (0 : ℝ) < (size : ℝ) := by exact_mod_cast hsize
  have hraw : 0 ≤ (n : ℝ) * f / fs := div_nonneg (mul_nonneg (Nat.cast_nonneg n) hf) hfs.le
  have hpos0 : 0 ≤ Int.fract ((n : ℝ) * f / fs) * (size : ℝ) :=
    mul_nonneg (Int.fract_nonneg _) hszR.le
  have hposlt : Int.fract ((n : ℝ) * f / fs) * (size : ℝ) < (size : ℝ) := by
    nlinarith [Int.fract_lt_one ((n : ℝ) * f / fs)]
  have hcast : castUsize (Int.fract ((n : ℝ) * f / fs) * (size : ℝ))
      = (trunc64 (Int.fract ((n : ℝ) * f / fs) * (size : ℝ))).toNat := by
    rw [castUsize_eq_floor_toNat hpos0 hposlt husize, trunc64_of_nonneg hpos0]
  refine ⟨?_, mul_div_cancel_right₀ _ (ne_of_gt hszR)⟩
  have h := synth_eq_some (WaveTable.new s size) n f fs
    (by rw [new_table_length, new_size]) (by rw [new_size]; exact hsize) hraw
  rw [new_size] at h
  rw [h, hcast]

/-- Witness for `synth_formula` at shape `saw`, `size = 4`, `n = 1`,
`f = 1`, `fs = 2`. -/
theorem synth_formula_witness :
    1 ≤ 4 ∧ 4 < 2 ^ 64 ∧ (0 : ℝ) ≤ 1 ∧ (0 : ℝ) < 2 ∧
      ((WaveTable.new Shape.saw 4).synth 1 1 2 =
        some ((1 - Int.fract (((1 : ℕ) : ℝ) * 1 / 2)) *
            (WaveTable.new Shape.saw 4).table.getD
              ((trunc64 (Int.fract (((1 : ℕ) : ℝ) * 1 / 2) * ((4 : ℕ) : ℝ))).toNat) 0 +
          Int.fract (((1 : ℕ) : ℝ) * 1 / 2) *
            (WaveTable.new Shape.saw 4).table.getD
              (((trunc64 (Int.fract (((1 : ℕ) : ℝ) * 1 / 2) * ((4 : ℕ) : ℝ))).toNat + 1) % 4) 0) ∧
      Int.fract (((1 : ℕ) : ℝ) * 1 / 2) * ((4 : ℕ) : ℝ) / ((4 : ℕ) : ℝ) =
        Int.fract (((1 : ℕ) : ℝ) * 1 / 2)) :=
  ⟨by decide, by norm_num, by norm_num, by norm_num,
    synth_formula Shape.saw 4 1 1 2 (by decide) (by norm_num) (by norm_num) (by norm_num)⟩

/-- C3: For every shape and valid inputs (`size ≥ 1`, `n ≥ 0`, `f ≥ 0`,
`fs > 0`), the value returned by `Synth` lies in `[-1, 1]` (exactly, in the
exact-real model). -/
theorem synth_range (s : Shape) (size n : ℕ) (f fs : ℝ)
    (hsize : 1 ≤ size) (hf : 0 ≤ f) (hfs : 0 < fs) :
    ∃ v, (WaveTable.new s size).synth n f fs = some v ∧ -1 ≤ v ∧ v ≤ 1 := by
  have hszR : (0 : ℝ) < (size : ℝ) := by exact_mod_cast hsize
  have hraw : 0 ≤ (n : ℝ) * f / fs := div_nonneg (mul_nonneg (Nat.cast_nonneg n) hf) hfs.le
  have h := synth_eq_some (WaveTable.new s size) n f fs
    (by rw [new_table_length, new_size]) (by rw [new_size]; exact hsize) hraw
  rw [new_size] at h
  refine ⟨_, h, ?_, ?_⟩ <;>
  · have hposlt : Int.fract ((n : ℝ) * f / fs) * (size : ℝ) < (size : ℝ) := by
      nlinarith [Int.fract_lt_one ((n : ℝ) * f / fs)]
    have hi0 : castUsize (Int.fract ((n : ℝ) * f / fs) * (size : ℝ)) < size :=
      castUsize_lt hsize hposlt
    have hi1 : (castUsize (Int.fract ((n : ℝ) * f / fs) * (size : ℝ)) + 1) % size < size :=
      Nat.mod_lt _ (by omega)
    have hb0 := new_table_getD_bounds s size _ hsize hi0
    have hb1 := new_table_getD_bounds s size _ hsize hi1
    have hr0 := Int.fract_nonneg ((n : ℝ) * f / fs)
    have hr1 := Int.fract_lt_one ((n : ℝ) * f / fs)
    nlinarith [hb0.1, hb0.2, hb1.1, hb1.2]

/-- Witness for `synth_range` at shape `square`, `size = 3`, `n = 5`,
`f = 7`, `fs = 3`. -/
theorem synth_range_witness :
    1 ≤ 3 ∧ (0 : ℝ) ≤ 7 ∧ (0 : ℝ) < 3 ∧
      (∃ v, (WaveTable.new Shape.square 3).synth 5 7 3 = some v ∧ -1 ≤ v ∧ v ≤ 1) :=
  ⟨by decide, by norm_num, by norm_num,
    synth_range Shape.square 3 5 7 3 (by decide) (by norm_num) (by norm_num)⟩

/-- C4 counterexample: the triangle table of size 4 is not `[-1, 0, 1, -1]`:
its last entry is `tri(0.75) = -4 * 0.75 + 3 = 0`, not `-1`. -/
theorem tri_table_four_counterexample :
    (WaveTable.new Shape.tri 4).table ≠ [-1, 0, 1, -1] := by
  have h3 : (WaveTable.new Shape.tri 4).table.getD 3 0 = Shape.tri.fn (((3 : ℕ) : ℝ) / 4) :=
    new_table_getD Shape.tri 4 3 (by omega)
  intro heq
  rw [heq] at h3
  have : Shape.tri.fn (((3 : ℕ) : ℝ) / 4) = tri (3 / 4) := by norm_num [Shape.fn]
  rw [this, tri] at h3
  rw [if_neg (by norm_num)] at h3
  norm_num at h3

/-- C4 amended: the triangle table of size 4 is `[-1, 0, 1, 0]`: the §4.1
formula at phases `0, 0.25, 0.5, 0.75` gives `-1, 0, 1, 0`. -/
theorem tri_table_four :
    (WaveTable.new Shape.tri 4).table = [-1, 0, 1, 0] := by
  show (List.range 4).map (fun (i : ℕ) => Shape.tri.fn ((i : ℝ) / ((4 : ℕ) : ℝ))) = _
  rw [show (4 : ℕ) = 0 + 1 + 1 + 1 + 1 by rfl]
  simp only [List.range_succ, List.range_zero, List.map_append, List.map_cons, List.map_nil,
    List.nil_append, List.cons_append, Shape.fn]
  norm_num [tri]

/-- C5 counterexample: the sawtooth function as implemented is not periodic
with period 1: `saw(0 + 1) = -1` but `saw(0) = 1`. -/
theorem saw_not_periodic : saw (0 + 1) ≠ saw 0 := by
  rw [saw, saw]
  norm_num

/-- C5 amended: only the sine function is exactly periodic with period 1 over
all real phases; the triangle, sawtooth and square functions as implemented
are not (their branch conditions and linear formulas do not reduce the phase
modulo 1), e.g. each differs between some phase and that phase plus one. -/
theorem waveforms_periodicity :
    (∀ x : ℝ, sine (x + 1) = sine x) ∧
    tri (1 + 1) ≠ tri 1 ∧ saw (1 + 1) ≠ saw 1 ∧ square (0.25 + 1) ≠ square 0.25 := by
  refine ⟨fun x => ?_, ?_, ?_, ?_⟩
  · rw [sine, sine, mul_add, mul_one, Real.sin_add_two_pi]
  · rw [tri, tri, if_neg (by norm_num), if_neg (by norm_num)]
    norm_num
  · rw [saw, saw]
    norm_num
  · rw [square, square, if_neg (by norm_num), if_pos (by norm_num)]
    norm_num

/-- C6 counterexample: construction with `size = 0` does not fail and has no
guard: `WaveTable::new(0)` returns a table with `size = 0` and an empty
sample vector. -/
theorem construct_zero_no_guard :
    WaveTable.new Shape.saw 0 = { size := 0, table := [] } := by
  rw [WaveTable.new]
  simp

/-- C6 amended: construction with `size = 0` succeeds unguarded, returning a
zero-length table; the failure only surfaces later, when `synth` on that
table panics (out-of-bounds indexing / remainder by zero), for every input. -/
theorem construct_zero_behavior (s : Shape) :
    (WaveTable.new s 0).size = 0 ∧ (WaveTable.new s 0).table = [] ∧
      ∀ (n : ℕ) (f fs : ℝ), (WaveTable.new s 0).synth n f fs = none := by
  refine ⟨rfl, by simp [WaveTable.new], fun n f fs => ?_⟩
  rw [WaveTable.synth]
  simp [WaveTable.new]

/-- C9: for every shape and `size ≥ 1`, `Synth(0, 531.33, 44100)` equals
`table[0]` exactly: the raw phase is `0`, so the blend weight is `0` and the
second table sample contributes nothing. -/
theorem synth_sample_zero (s : Shape) (size : ℕ) (hsize : 1 ≤ size) :
    (WaveTable.new s size).synth 0 (531.33 : ℝ) (44100 : ℝ) =
      some ((WaveTable.new s size).table.getD 0 0) := by
  have h := synth_eq_some (WaveTable.new s size) 0 (531.33 : ℝ) (44100 : ℝ)
    (by rw [new_table_length, new_size]) (by rw [new_size]; exact hsize) (by norm_num)
  rw [new_size] at h
  have hc : castUsize (Int.fract (((0 : ℕ) : ℝ) * (531.33 : ℝ) / (44100 : ℝ)) * (size : ℝ))
      = 0 := by
    norm_num [castUsize, trunc64]
  rw [h, hc]
  norm_num

/-- Witness for `synth_sample_zero` at shape `tri`, `size = 4`. -/
theorem synth_sample_zero_witness :
    1 ≤ 4 ∧ (WaveTable.new Shape.tri 4).synth 0 (531.33 : ℝ) (44100 : ℝ) =
      some ((WaveTable.new Shape.tri 4).table.getD 0 0) :=
  ⟨by decide, synth_sample_zero Shape.tri 4 (by decide)⟩

/-! ## IEEE-754 classification model

The claims about `fs = 0` and panic-freedom concern `NaN`/`Inf` propagation,
which the exact-real model cannot express. `FloatV` models an `f64` as
either an exact finite value, `NaN`, or a signed infinity, with the source's
operations interpreted by the IEEE-754 rules for non-finite operands.
Finite-value rounding and overflow are not modelled (rounding never changes
the finite/non-finite classification, and overflow to infinity could only
reinforce the non-finite outcomes proved below); signed zero is not
modelled, `fin 0` standing for `+0.0`. -/

inductive FloatV where
  | fin (x : ℝ)
  | nan
  | inf
  | ninf

/-- IEEE-754 multiplication on the classification model: `NaN` propagates,
`±∞ * 0` is `NaN`, and infinities otherwise obey the sign rules. -/
noncomputable def FloatV.mul : FloatV → FloatV → FloatV
  | .nan, _ => .nan
  | _, .nan => .nan
  | .fin a, .fin b => .fin (a * b)
  | .inf, .fin b => if 0 < b then .inf else if b < 0 then .ninf else .nan
  | .fin a, .inf => if 0 < a then .inf else if a < 0 then .ninf else .nan
  | .ninf, .fin b => if 0 < b then .ninf else if b < 0 then .inf else .nan
  | .fin a, .ninf => if 0 < a then .ninf else if a < 0 then .inf else .nan
  | .inf, .inf => .inf
  | .inf, .ninf => .ninf
  | .ninf, .inf => .ninf
  | .ninf, .ninf => .inf

/-- IEEE-754 division: `NaN` propagates; `x / 0` is `NaN` for `x = 0` and a
sign-directed infinity otherwise (the divisor `fin 0` standing for `+0.0`);
finite over infinity is `0`; infinity over infinity is `NaN`. -/
noncomputable def FloatV.div : FloatV → FloatV → FloatV
  | .nan, _ => .nan
  | _, .nan => .nan
  | .fin a, .fin b =>
    if b = 0 then (if a = 0 then .nan else if 0 < a then .inf else .ninf)
    else .fin (a / b)
  | .fin _, .inf => .fin 0
  | .fin _, .ninf => .fin 0
  | .inf, .fin b => if b < 0 then .ninf else .inf
  | .ninf, .fin b => if b < 0 then .inf else .ninf
  | .inf, .inf => .nan
  | .inf, .ninf => .nan
  | .ninf, .inf => .nan
  | .ninf, .ninf => .nan

/-- IEEE-754 subtraction (for `1.0 - rel_pos`): `NaN` propagates and
`∞ - ∞` is `NaN`. -/
noncomputable def FloatV.sub : FloatV → FloatV → FloatV
  | .nan, _ => .nan
  | _, .nan => .nan
  | .fin a, .fin b => .fin (a - b)
  | .fin _, .inf => .ninf
  | .fin _, .ninf => .inf
  | .inf, .fin _ => .inf
  | .ninf, .fin _ => .ninf
  | .inf, .inf => .nan
  | .inf, .ninf => .inf
  | .ninf, .inf => .ninf
  | .ninf, .ninf => .nan

/-- IEEE-754 addition: `NaN` propagates and `∞ + (-∞)` is `NaN`. -/
noncomputable def FloatV.add : FloatV → FloatV → FloatV
  | .nan, _ => .nan
  | _, .nan => .nan
  | .fin a, .fin b => .fin (a + b)
  | .fin _, .inf => .inf
  | .fin _, .ninf => .ninf
  | .inf, .fin _ => .inf
  | .ninf, .fin _ => .ninf
  | .inf, .inf => .inf
  | .inf, .ninf => .nan
  | .ninf, .inf => .nan
  | .ninf, .ninf => .ninf

/-- Rust `f64::fract` (`self - self.trunc()`): exact truncation on finite
values, `NaN` on `NaN` and on the infinities (`∞ - ∞`). -/
noncomputable def FloatV.fract : FloatV → FloatV
  | .fin x => .fin (fract64 x)
  | _ => .nan

/-- Rust's saturating `f64 as usize` cast: `NaN` and negative values go to
`0`, `+∞` to `usize::MAX`, finite values are truncated and clamped. -/
noncomputable def FloatV.toUsize : FloatV → ℕ
  | .fin x => castUsize x
  | .nan => 0
  | .inf => 2 ^ 64 - 1
  | .ninf => 0

/-- Finiteness classification of a modelled `f64`. -/
def FloatV.isFinite : FloatV → Bool
  | .fin _ => true
  | _ => false

/-- `WaveTable::synth` under the IEEE-754 classification model: the same
expression as `WaveTable.synth`, with every `f64` operation interpreted in
`FloatV`, for the claims about degenerate inputs (`fs = 0`, negative or
`NaN` arguments). `none` models a panic, in source evaluation order. -/
noncomputable def WaveTable.synthF (wt : WaveTable) (n : ℕ) (f fs : FloatV) : Option FloatV :=
  let pos : FloatV :=
    ((((FloatV.fin ((n : ℕ) : ℝ)).mul f).div fs).fract).mul (FloatV.fin ((wt.size : ℕ) : ℝ))
  let rel_pos : FloatV := pos.div (FloatV.fin ((wt.size : ℕ) : ℝ))
  match wt.table[pos.toUsize]? with
  | none => none
  | some t0 =>
    if wt.size = 0 then none
    else
      match wt.table[(pos.toUsize + 1) % wt.size]? with
      | none => none
      | some t1 =>
        some ((((FloatV.fin 1).sub rel_pos).mul (FloatV.fin t0)).add (rel_pos.mul (FloatV.fin t1)))

/-- The fractional part in the float model is `NaN` or finite in `(-1, 1)`. -/
theorem FloatV.fract_cases (v : FloatV) :
    v.fract = FloatV.nan ∨ ∃ q : ℝ, v.fract = FloatV.fin q ∧ -1 < q ∧ q < 1 := by
  cases v with
  | fin x => exact Or.inr ⟨fract64 x, rfl, neg_one_lt_fract64 x, fract64_lt_one x⟩
  | nan => exact Or.inl rfl
  | inf => exact Or.inl rfl
  | ninf => exact Or.inl rfl

/-- The first table index computed by `synthF` is in range: the fractional
part times the size is either `NaN` (cast to `0`) or below `size`. -/
theorem FloatV.toUsize_fract_mul_lt (v : FloatV) {size : ℕ} (hsize : 1 ≤ size) :
    ((v.fract).mul (FloatV.fin ((size : ℕ) : ℝ))).toUsize < size := by
  have hszR : (0 : ℝ) < ((size : ℕ) : ℝ) := by exact_mod_cast hsize
  rcases FloatV.fract_cases v with h | ⟨q, h, hq1, hq2⟩
  · rw [h]
    show (FloatV.nan.mul _).toUsize < size
    rw [FloatV.mul, FloatV.toUsize]
    omega
  · rw [h]
    show (FloatV.fin (q * ((size : ℕ) : ℝ))).toUsize < size
    rw [FloatV.toUsize]
    apply castUsize_lt hsize
    nlinarith

/-- Dividing any modelled float by `+0.0` and taking `fract` yields `NaN`:
finite/0 is `NaN` or `±∞` and `fract` of a non-finite value is `NaN`. -/
theorem FloatV.div_zero_fract (x : FloatV) : (x.div (FloatV.fin 0)).fract = FloatV.nan := by
  cases x with
  | nan => rfl
  | fin a =>
    rw [FloatV.div, if_pos rfl]
    split
    · rfl
    · split <;> rfl
  | inf =>
    rw [FloatV.div, if_neg (lt_irrefl (0 : ℝ))]
    rfl
  | ninf =>
    rw [FloatV.div, if_neg (lt_irrefl (0 : ℝ))]
    rfl

/-- C7: for every shape, `size ≥ 1`, every `n` and every frequency value
`f`, calling `Synth` with `fs = 0` returns a non-finite float (`NaN`) by
IEEE-754 propagation, rather than failing or panicking. -/
theorem synth_fs_zero_nonfinite (s : Shape) (size n : ℕ) (f : FloatV) (hsize : 1 ≤ size) :
    (WaveTable.new s size).synthF n f (FloatV.fin 0) = some FloatV.nan ∧
      FloatV.nan.isFinite = false := by
  refine ⟨?_, rfl⟩
  have hfr : ((((FloatV.fin ((n : ℕ) : ℝ)).mul f).div (FloatV.fin 0)).fract) = FloatV.nan :=
    FloatV.div_zero_fract _
  rw [WaveTable.synthF]
  simp only [new_size, hfr]
  rw [show (FloatV.nan.mul (FloatV.fin ((size : ℕ) : ℝ))).toUsize = 0 from rfl]
  rw [new_table_getElem? s size 0 (by omega)]
  simp only [if_neg (show ¬ size = 0 by omega)]
  rw [new_table_getElem? s size _ (Nat.mod_lt (0 + 1) (by omega))]
  rfl

/-- Witness for `synth_fs_zero_nonfinite` at shape `square`, `size = 4`,
`n = 3`, `f = NaN`. -/
theorem synth_fs_zero_nonfinite_witness :
    1 ≤ 4 ∧
      ((WaveTable.new Shape.square 4).synthF 3 FloatV.nan (FloatV.fin 0) = some FloatV.nan ∧
        FloatV.nan.isFinite = false) :=
  ⟨by decide, synth_fs_zero_nonfinite Shape.square 4 3 FloatV.nan (by decide)⟩

/-- C10: `synth` is total and never panics for every shape, `size ≥ 1`,
every `n` and all `f64` values of `f` and `fs` (zero, negative, infinite or
`NaN`): the truncating saturating cast and the modulo keep both table
indices strictly below `size`, so both accesses are in bounds. -/
theorem synth_never_panics (s : Shape) (size n : ℕ) (f fs : FloatV) (hsize : 1 ≤ size) :
    ∃ v, (WaveTable.new s size).synthF n f fs = some v := by
  have hi0 : ((((FloatV.fin ((n : ℕ) : ℝ)).mul f).div fs).fract.mul
      (FloatV.fin ((size : ℕ) : ℝ))).toUsize < size :=
    FloatV.toUsize_fract_mul_lt _ hsize
  have hi1 : (((((FloatV.fin ((n : ℕ) : ℝ)).mul f).div fs).fract.mul
      (FloatV.fin ((size : ℕ) : ℝ))).toUsize + 1) % size < size :=
    Nat.mod_lt _ (by omega)
  rw [WaveTable.synthF]
  simp only [new_size]
  rw [new_table_getElem? s size _ hi0]
  simp only [if_neg (show ¬ size = 0 by omega)]
  rw [new_table_getElem? s size _ hi1]
  exact ⟨_, rfl⟩

/-- Witness for `synth_never_panics` at shape `sine`, `size = 2`, `n = 7`,
`f = -∞`, `fs = NaN`. -/
theorem synth_never_panics_witness :
    1 ≤ 2 ∧ ∃ v, (WaveTable.new Shape.sine 2).synthF 7 FloatV.ninf FloatV.nan = some v :=
  ⟨by decide, synth_never_panics Shape.sine 2 7 FloatV.ninf FloatV.nan (by decide)⟩

/-- C8: when `pos` falls in the last sub-interval `[size - 1, size)`, the
first index is `size - 1`, the wraparound `(i0 + 1) % size` gives `0`, and
`synth` interpolates `table[size-1]` toward `table[0]` with no
out-of-bounds access. -/
theorem synth_wraparound (s : Shape) (size n : ℕ) (f fs : ℝ)
    (hsize : 1 ≤ size) (husize : size < 2 ^ 64) (hf : 0 ≤ f) (hfs : 0 < fs)
    (hlast : (size : ℝ) - 1 ≤ Int.fract ((n : ℝ) * f / fs) * (size : ℝ)) :
    castUsize (Int.fract ((n : ℝ) * f / fs) * (size : ℝ)) = size - 1 ∧
    (castUsize (Int.fract ((n : ℝ) * f / fs) * (size : ℝ)) + 1) % size = 0 ∧
    (WaveTable.new s size).synth n f fs =
      some ((1 - Int.fract ((n : ℝ) * f / fs)) *
          (WaveTable.new s size).table.getD (size - 1) 0 +
        Int.fract ((n : ℝ) * f / fs) * (WaveTable.new s size).table.getD 0 0) := by
  have hszR : (0 : ℝ) < (size : ℝ) := by exact_mod_cast hsize
  have hraw : 0 ≤ (n : ℝ) * f / fs := div_nonneg (mul_nonneg (Nat.cast_nonneg n) hf) hfs.le
  have hpos0 : 0 ≤ Int.fract ((n : ℝ) * f / fs) * (size : ℝ) :=
    mul_nonneg (Int.fract_nonneg _) hszR.le
  have hposlt : Int.fract ((n : ℝ) * f / fs) * (size : ℝ) < (size : ℝ) := by
    nlinarith [Int.fract_lt_one ((n : ℝ) * f / fs)]
  have hfl : ⌊Int.fract ((n : ℝ) * f / fs) * (size : ℝ)⌋ = (size : ℤ) - 1 := by
    rw [Int.floor_eq_iff]
    constructor
    · push_cast
      linarith
    · push_cast
      linarith
  have hcast : castUsize (Int.fract ((n : ℝ) * f / fs) * (size : ℝ)) = size - 1 := by
    rw [castUsize_eq_floor_toNat hpos0 hposlt husize, hfl]
    omega
  have hmod : (castUsize (Int.fract ((n : ℝ) * f / fs) * (size : ℝ)) + 1) % size = 0 := by
    rw [hcast, Nat.sub_add_cancel hsize, Nat.mod_self]
  refine ⟨hcast, hmod, ?_⟩
  have h := synth_eq_some (WaveTable.new s size) n f fs
    (by rw [new_table_length, new_size]) (by rw [new_size]; exact hsize) hraw
  rw [new_size] at h
  rw [h, hmod, hcast]

/-- Witness for `synth_wraparound` at shape `tri`, `size = 2`, `n = 1`,
`f = 3`, `fs = 4`: the raw phase is `3/4`, so `pos = 3/2 ∈ [1, 2)`. -/
theorem synth_wraparound_witness :
    1 ≤ 2 ∧ 2 < 2 ^ 64 ∧ (0 : ℝ) ≤ 3 ∧ (0 : ℝ) < 4 ∧
      (((2 : ℕ) : ℝ) - 1 ≤ Int.fract (((1 : ℕ) : ℝ) * 3 / 4) * ((2 : ℕ) : ℝ)) ∧
      (castUsize (Int.fract (((1 : ℕ) : ℝ) * 3 / 4) * ((2 : ℕ) : ℝ)) = 2 - 1 ∧
        (castUsize (Int.fract (((1 : ℕ) : ℝ) * 3 / 4) * ((2 : ℕ) : ℝ)) + 1) % 2 = 0 ∧
        (WaveTable.new Shape.tri 2).synth 1 3 4 =
          some ((1 - Int.fract (((1 : ℕ) : ℝ) * 3 / 4)) *
              (WaveTable.new Shape.tri 2).table.getD (2 - 1) 0 +
            Int.fract (((1 : ℕ) : ℝ) * 3 / 4) * (WaveTable.new Shape.tri 2).table.getD 0 0)) := by
  have hfr : Int.fract (((1 : ℕ) : ℝ) * 3 / 4) = 3 / 4 := by
    rw [show (((1 : ℕ) : ℝ) * 3 / 4) = 3 / 4 by norm_num]
    exact Int.fract_eq_self.mpr ⟨by norm_num, by norm_num⟩
  have hlast : ((2 : ℕ) : ℝ) - 1 ≤ Int.fract (((1 : ℕ) : ℝ) * 3 / 4) * ((2 : ℕ) : ℝ) := by
    rw [hfr]
    norm_num
  exact ⟨by decide, by norm_num, by norm_num, by norm_num, hlast,
    synth_wraparound Shape.tri 2 1 3 4 (by decide) (by norm_num) (by norm_num) (by norm_num)
      hlast⟩

end Wavetable
